import Mathlib

/-!
Verification development for the polygon-geometry / rasterization core of
`keras_hub.src.models.diffbin.db_utils` (the DiffBin text-detection target
generator).  The module itself is absent from the available sources (only its
test suite `db_utils_test.py` is present), so every operation below is
modelled from the natural-language specification, with coordinates taken in
`ℚ` as the executable stand-in for real numbers.
-/

namespace DBUtils

/-- Modelled from the spec: the `Point` 2D-vector primitive of `db_utils`
(absent from the sources).  A plain pair of rational coordinates supporting
addition, subtraction, negation, cross product and conversion to a pair. -/
structure Point where
  x : ℚ
  y : ℚ
deriving DecidableEq, Repr

instance : Inhabited Point := ⟨⟨0, 0⟩⟩

/-- Modelled from the spec: `Point.__add__`, component-wise addition. -/
def Point.add (a b : Point) : Point := ⟨a.x + b.x, a.y + b.y⟩

instance : Add Point := ⟨Point.add⟩

/-- Modelled from the spec: `Point.__sub__`, component-wise subtraction. -/
def Point.sub (a b : Point) : Point := ⟨a.x - b.x, a.y - b.y⟩

instance : Sub Point := ⟨Point.sub⟩

/-- Modelled from the spec: `Point.__neg__`, component-wise negation. -/
def Point.neg (a : Point) : Point := ⟨-a.x, -a.y⟩

instance : Neg Point := ⟨Point.neg⟩

/-- Modelled from the spec: `Point.cross`, the 2D cross product
`x1*y2 - y1*x2`. -/
def Point.cross (a b : Point) : ℚ := a.x * b.y - a.y * b.x

/-- Modelled from the spec: `Point.to_tuple`, conversion to a plain pair. -/
def Point.to_tuple (a : Point) : ℚ × ℚ := (a.x, a.y)

/-- Scaling a point by a rational factor (used by the offset engine). -/
def Point.smul (c : ℚ) (a : Point) : Point := ⟨c * a.x, c * a.y⟩

/-- Modelled from the spec: the adapter that normalizes a raw coordinate
pair into the canonical `Point` type before any geometric operation runs. -/
def mkPoint (c : ℚ × ℚ) : Point := ⟨c.1, c.2⟩

/-- Cross product of two raw coordinate pairs (shoelace term). -/
def cross2 (a b : ℚ × ℚ) : ℚ := a.1 * b.2 - a.2 * b.1

/-- Sum of cross products over consecutive pairs of an (open) vertex path;
the building block of the shoelace sum. -/
def pathSum : List (ℚ × ℚ) → ℚ
  | [] => 0
  | [_] => 0
  | p :: q :: rest => cross2 p q + pathSum (q :: rest)

/-- Modelled from the spec: the signed shoelace sum
`Σ (x_i * y_{i+1} - x_{i+1} * y_i)` with wraparound, realized by closing
the vertex path back to its first vertex. -/
def shoelace : List (ℚ × ℚ) → ℚ
  | [] => 0
  | a :: t => pathSum ((a :: t) ++ [a])

/-- Modelled from the spec: `Polygon(coords)` of `db_utils` (absent from the
sources) returns the non-negative area of the closed polygon through the
given coordinates: the absolute value of the signed shoelace sum, halved. -/
def Polygon (coords : List (ℚ × ℚ)) : ℚ := |shoelace coords| / 2

/-- Dot product of raw coordinate pairs. -/
def dot2 (a b : ℚ × ℚ) : ℚ := a.1 * b.1 + a.2 * b.2

/-- Component-wise subtraction of raw coordinate pairs. -/
def sub2 (a b : ℚ × ℚ) : ℚ × ℚ := (a.1 - b.1, a.2 - b.2)

/-- Component-wise addition of raw coordinate pairs. -/
def add2 (a b : ℚ × ℚ) : ℚ × ℚ := (a.1 + b.1, a.2 + b.2)

/-- Scaling of a raw coordinate pair. -/
def smul2 (c : ℚ) (a : ℚ × ℚ) : ℚ × ℚ := (c * a.1, c * a.2)

/-- Modelled from the spec: the (unclamped) projection parameter `t` of the
orthogonal projection of `x` onto the line through `u` and `v`, namely
`⟨x-u, v-u⟩ / ⟨v-u, v-u⟩`. -/
def lineParam (x u v : ℚ × ℚ) : ℚ := dot2 (sub2 x u) (sub2 v u) / dot2 (sub2 v u) (sub2 v u)

/-- Modelled from the spec: `project_point_to_line(x, u, v)` of `db_utils`
(absent from the sources): the orthogonal projection of `x` onto the
infinite line through `u` and `v`; when `u = v` the projection is `u`
(guarding the division by zero). -/
def project_point_to_line (x u v : ℚ × ℚ) : ℚ × ℚ :=
  if u = v then u else add2 u (smul2 (lineParam x u v) (sub2 v u))

/-- Modelled from the spec: `project_point_to_segment(x, u, v)` of
`db_utils` (absent from the sources): projects onto the line, then clamps
the projection parameter to `[0, 1]`, so the result always lies on the
closed segment from `u` to `v`. -/
def project_point_to_segment (x u v : ℚ × ℚ) : ℚ × ℚ :=
  if u = v then u
  else add2 u (smul2 (max 0 (min 1 (lineParam x u v))) (sub2 v u))

/-- Perpendicular of an edge direction vector; the sign convention (which
perpendicular is "inward") is internal to the offset engine, per the spec. -/
def edgeNormal (e : Point) : Point := ⟨-e.y, e.x⟩

/-- Rational near-unit rescaling of a vector: division by its taxicab
norm (exact Euclidean unit vectors are irrational; this agrees with them
on axis-aligned vectors and is within a factor `√2` in general). -/
def unitish (p : Point) : Point :=
  let m := |p.x| + |p.y|
  if m = 0 then p else Point.smul (1 / m) p

/-- Modelled from the spec: `shrink_polygan(poly, offset)` of `db_utils`
(absent from the sources).  Mitered-join polygon offsetting: every edge is
moved along its (near-unit) inward normal by the offset, and each new
vertex is the intersection of the two adjacent offset edge lines; parallel
adjacent edges fall back to the averaged offset point.  Polygons with
fewer than 3 vertices are returned unchanged. -/
def shrink_polygan (poly : List Point) (offset : ℚ) : List Point :=
  if poly.length < 3 then poly
  else
    let n := poly.length
    let v : ℕ → Point := fun i => poly.getD (i % n) default
    let e : ℕ → Point := fun j => v (j + 1) - v j
    let s : ℕ → Point := fun j => Point.smul offset (unitish (edgeNormal (e j)))
    (List.range n).map fun i =>
      let p := (i + n - 1) % n
      let den := (e p).cross (e i)
      if den = 0 then v i + Point.smul (1 / 2) (s p + s i)
      else
        let p1 := v p + s p
        let p2 := v i + s i
        p1 + Point.smul (((p2 - p1).cross (e i)) / den) (e p)

/-- Modelled from the spec: `shrink_polygan` applied to the raw-coordinate
representation of a polygon: the adapter `mkPoint` normalizes every raw
coordinate pair into the canonical `Point` type and the canonical
implementation runs on the result. -/
def shrink_polygan_array (arr : List (ℚ × ℚ)) (offset : ℚ) : List Point :=
  shrink_polygan (arr.map mkPoint) offset

/-- Fold of `max` over a list of rationals, seeded with a first value. -/
def listMax (a : ℚ) (l : List ℚ) : ℚ := l.foldl max a

/-- Fold of `min` over a list of rationals, seeded with a first value. -/
def listMin (a : ℚ) (l : List ℚ) : ℚ := l.foldl min a

/-- Modelled from the spec: the polygon's bounding extent (the larger of
the two bounding-box dimensions), from which the binary search derives its
upper bound. -/
def boundingExtent (poly : List (ℚ × ℚ)) : ℚ :=
  match poly with
  | [] => 0
  | p :: rest =>
    let xs := rest.map Prod.fst
    let ys := rest.map Prod.snd
    max (listMax p.1 xs - listMin p.1 xs) (listMax p.2 ys - listMin p.2 ys)

/-- Modelled from the spec: the validity probe of the binary search: the
polygon shrunk by the probed distance must keep a valid vertex count and a
non-vanishing area. -/
def validShrink (poly : List Point) (d : ℕ) : Bool :=
  let s := shrink_polygan poly (d : ℚ)
  decide (3 ≤ s.length) && decide (0 < Polygon (s.map Point.to_tuple))

/-- Bounded binary search over an integer range returning the largest
probe confirmed valid, moving the lower bound up on success and the upper
bound down on failure; the fuel argument bounds the iteration count. -/
def searchLargestValid (valid : ℕ → Bool) : ℕ → ℕ → ℕ → ℕ
  | 0, lo, _ => lo
  | fuel + 1, lo, hi =>
    if hi ≤ lo then lo
    else
      let mid := (lo + hi + 1) / 2
      if valid mid then searchLargestValid valid fuel mid hi
      else searchLargestValid valid fuel lo (mid - 1)

/-- Modelled from the spec: `binary_search_smallest_width(poly)` of
`db_utils` (absent from the sources): for a polygon with fewer than 3
vertices return 0 directly; otherwise binary-search the integer range from
0 to an upper bound derived from the bounding extent for the largest shrink
distance that keeps the polygon valid, returned as an integer. -/
def binary_search_smallest_width (poly : List (ℚ × ℚ)) : ℤ :=
  if poly.length < 3 then 0
  else
    let pts := poly.map mkPoint
    let hi := (boundingExtent poly).ceil.toNat
    ((searchLargestValid (fun d => validShrink pts d) (hi + 1) 0 hi : ℕ) : ℤ)

/-- Sum of taxicab edge lengths over consecutive pairs of a vertex path;
rational stand-in for the Euclidean perimeter accumulator. -/
def pathL1 : List (ℚ × ℚ) → ℚ
  | [] => 0
  | [_] => 0
  | p :: q :: rest => (|q.1 - p.1| + |q.2 - p.2|) + pathL1 (q :: rest)

/-- Modelled from the spec: the polygon perimeter used by the shrink-
distance heuristic, taken in the taxicab metric to stay rational. -/
def perimeterL1 (poly : List (ℚ × ℚ)) : ℚ :=
  match poly with
  | [] => 0
  | a :: t => pathL1 ((a :: t) ++ [a])

/-- Modelled from the spec: `get_line_height(poly)` of `db_utils` (absent
from the sources): a representative stroke height from the polygon's
shorter bounding dimension, truncated to a non-negative integer. -/
def get_line_height (poly : List (ℚ × ℚ)) : ℕ :=
  match poly with
  | [] => 0
  | p :: rest =>
    let xs := rest.map Prod.fst
    let ys := rest.map Prod.snd
    (min (listMax p.1 xs - listMin p.1 xs) (listMax p.2 ys - listMin p.2 ys)).floor.toNat

/-- Modelled from the spec: the effective offset distance of
`get_region_coordinate` (§4.11 leaves the exact heuristic open): the
shrink ratio is clamped to `[0, 1]`, and the distance scales with the
polygon's area-to-perimeter ratio and the instance height, guarding the
degenerate zero-perimeter case. -/
def offsetDistance (poly : List (ℚ × ℚ)) (height ratio : ℚ) : ℚ :=
  let r := max 0 (min 1 ratio)
  let per := perimeterL1 poly
  if per = 0 then 0 else Polygon poly * (1 - r * r) * height / per

/-- Modelled from the spec: `get_region_coordinate(w, h, polys, heights,
shrink_ratio)` of `db_utils` (absent from the sources): for every polygon
and its height, derive the effective shrink distance, run the offset
engine, and keep the shrunk polygon only if it is non-degenerate (at
least 3 vertices and non-vanishing area); degenerate instances are
silently dropped.  This is the per-instance step: derive the shrink
distance, run the offset engine, and keep the result only if it is
non-degenerate. -/
def regionOf (shrink_ratio : ℚ) (ph : List (ℚ × ℚ) × ℚ) :
    Option (List (ℚ × ℚ)) :=
  let s := (shrink_polygan (ph.1.map mkPoint)
    (offsetDistance ph.1 ph.2 shrink_ratio)).map Point.to_tuple
  if s.length < 3 ∨ Polygon s = 0 then none else some s

/-- Modelled from the spec: `get_region_coordinate(w, h, polys, heights,
shrink_ratio)` of `db_utils` (absent from the sources): the per-instance
shrink step mapped over the parallel polygon and height lists, with
degenerate results silently dropped. -/
def get_region_coordinate (w h : ℕ) (polys : List (List (ℚ × ℚ)))
    (heights : List ℚ) (shrink_ratio : ℚ) : List (List (ℚ × ℚ)) :=
  (polys.zip heights).filterMap (regionOf shrink_ratio)

/-- Edge list of a closed polygon: consecutive vertex pairs with
wraparound. -/
def edgesOf (poly : List (ℚ × ℚ)) : List ((ℚ × ℚ) × (ℚ × ℚ)) :=
  match poly with
  | [] => []
  | a :: t => (a :: t).zip (t ++ [a])

/-- One step of the even-odd ray-casting test: whether a rightward
horizontal ray from `p` crosses the edge from `a` to `b`. -/
def edgeCrosses (p a b : ℚ × ℚ) : Bool :=
  ((decide (a.2 ≤ p.2)) != (decide (b.2 ≤ p.2))) &&
    decide (p.1 < a.1 + (b.1 - a.1) * (p.2 - a.2) / (b.2 - a.2))

/-- Modelled from the spec: the even-odd (crossing-parity) containment
test of the rasterizer, evaluated at one coordinate. -/
def insidePoly (p : ℚ × ℚ) (poly : List (ℚ × ℚ)) : Bool :=
  decide (((edgesOf poly).countP fun ab => edgeCrosses p ab.1 ab.2) % 2 = 1)

/-- Modelled from the spec: `fill_poly_keras(vertices, image_shape)` of
`db_utils` (absent from the sources): rasterizes the polygon over the full
coordinate grid of the requested `(height, width)` shape via the even-odd
containment test, producing inclusion values in `{0, 1}`. -/
def fill_poly_keras (vertices : List (ℚ × ℚ)) (shape : ℕ × ℕ) : List (List ℚ) :=
  (List.range shape.1).map fun (i : ℕ) =>
    (List.range shape.2).map fun (j : ℕ) =>
      if insidePoly ((j : ℚ), (i : ℚ)) vertices then 1 else 0

/-- The all-zero raster with `h` rows and `w` columns. -/
def zerosRaster (h w : ℕ) : List (List ℚ) :=
  List.replicate h (List.replicate w 0)

/-- Pixel-wise maximum of two rasters (the union merge of the mask
composer). -/
def mergeMax (a b : List (List ℚ)) : List (List ℚ) :=
  List.zipWith (List.zipWith max) a b

/-- One accumulation step of the mask composer: skip the polygon when its
ignore flag is set, otherwise rasterize it and merge by pixel-wise
maximum. -/
def maskStep (h w : ℕ) (acc : List (List ℚ)) (pb : List (ℚ × ℚ) × Bool) :
    List (List ℚ) :=
  if pb.2 then acc else mergeMax acc (fill_poly_keras pb.1 (h, w))

/-- Modelled from the spec: `get_mask(w, h, polys, ignores)` of `db_utils`
(absent from the sources): rasterize every polygon whose ignore flag is
false and merge it into an all-zero accumulator by pixel-wise maximum;
ignored polygons contribute nothing. -/
def get_mask (w h : ℕ) (polys : List (List (ℚ × ℚ))) (ignores : List Bool) :
    List (List ℚ) :=
  (polys.zip ignores).foldl (maskStep h w) (zerosRaster h w)

/-- Indicator of a positive mask value. -/
def maskInd (m : ℚ) : ℚ := if 0 < m then 1 else 0

/-- Sum of all entries of a raster. -/
def rasterSum (r : List (List ℚ)) : ℚ := (r.map fun row => row.sum).sum

/-- Pixel-wise combination of two rasters. -/
def rasterMap2 (f : ℚ → ℚ → ℚ) (a b : List (List ℚ)) : List (List ℚ) :=
  List.zipWith (List.zipWith f) a b

/-- Modelled from the spec: `get_normalized_weight(heatmap, mask)` of
`db_utils` (absent from the sources): restrict the heatmap to the mask's
positive support and rescale it so the masked weights sum to the count of
positive mask pixels; when the masked sum is zero (in particular when the
mask has no positive pixel) return the all-zero raster instead of
dividing by zero. -/
def get_normalized_weight (heatmap mask : List (List ℚ)) : List (List ℚ) :=
  let masked := rasterMap2 (fun hv mv => hv * maskInd mv) heatmap mask
  let s := rasterSum masked
  let cnt := rasterSum (mask.map fun row => row.map maskInd)
  if s = 0 then heatmap.map fun row => row.map fun _ => 0
  else masked.map fun row => row.map fun v => v * cnt / s

end DBUtils

namespace DBUtils

lemma pathSum_append (l₁ : List (ℚ × ℚ)) (p : ℚ × ℚ) (l₂ : List (ℚ × ℚ)) :
    pathSum (l₁ ++ p :: l₂) = pathSum (l₁ ++ [p]) + pathSum (p :: l₂) := by
  induction l₁ with
  | nil => simp [pathSum]
  | cons a l₁ ih =>
    cases l₁ with
    | nil =>
      cases l₂ with
      | nil => simp [pathSum]
      | cons b l₂ => simp [pathSum, add_assoc]
    | cons b l₁ =>
      simp only [List.cons_append, pathSum, List.append_eq] at ih ⊢
      rw [ih]; ring

lemma pathSum_reverse (l : List (ℚ × ℚ)) : pathSum l.reverse = -pathSum l := by
  induction l with
  | nil => simp [pathSum]
  | cons p t ih =>
    cases t with
    | nil => simp [pathSum]
    | cons q rest =>
      have h : (p :: q :: rest).reverse = (q :: rest).reverse ++ [p] := by
        simp
      rw [h]
      have h2 : (q :: rest).reverse = rest.reverse ++ [q] := by simp
      rw [h2, List.append_assoc]
      rw [show ([q] ++ [p] : List (ℚ × ℚ)) = q :: [p] from rfl]
      rw [pathSum_append rest.reverse q [p]]
      rw [← h2, ih]
      simp [pathSum, cross2]
      ring

lemma shoelace_cons_snoc (a : ℚ × ℚ) (t : List (ℚ × ℚ)) :
    shoelace (t ++ [a]) = shoelace (a :: t) := by
  cases t with
  | nil => rfl
  | cons b t' =>
    show pathSum ((b :: (t' ++ [a])) ++ [b]) = pathSum ((a :: b :: t') ++ [a])
    have h1 : (b :: (t' ++ [a])) ++ [b] = (b :: t') ++ a :: [b] := by simp
    rw [h1, pathSum_append (b :: t') a [b]]
    simp only [List.cons_append, pathSum, cross2, List.append_eq]
    ring

lemma shoelace_rotate_one (l : List (ℚ × ℚ)) :
    shoelace (l.rotate 1) = shoelace l := by
  cases l with
  | nil => rfl
  | cons a t =>
    rw [List.rotate_cons_succ, List.rotate_zero]
    exact shoelace_cons_snoc a t

lemma shoelace_rotate (l : List (ℚ × ℚ)) (k : ℕ) :
    shoelace (l.rotate k) = shoelace l := by
  induction k generalizing l with
  | zero => rw [List.rotate_zero]
  | succ k ih =>
    have : l.rotate (k + 1) = (l.rotate 1).rotate k := by
      rw [List.rotate_rotate]; ring_nf
    rw [this, ih, shoelace_rotate_one]

lemma shoelace_reverse (l : List (ℚ × ℚ)) :
    shoelace l.reverse = -shoelace l := by
  cases l with
  | nil => simp [shoelace]
  | cons a t =>
    have h1 : (a :: t).reverse = t.reverse ++ [a] := by simp
    rw [h1, shoelace_cons_snoc a t.reverse]
    show pathSum ((a :: t.reverse) ++ [a]) = -shoelace (a :: t)
    have h2 : (a :: t.reverse) ++ [a] = ((a :: t) ++ [a]).reverse := by simp
    rw [h2, pathSum_reverse]
    rfl

lemma shoelace_short (coords : List (ℚ × ℚ)) (h : coords.length < 3) :
    shoelace coords = 0 := by
  match coords, h with
  | [], _ => rfl
  | [a], _ =>
    simp only [shoelace, List.cons_append, List.nil_append, pathSum, cross2]
    ring
  | [a, b], _ =>
    simp only [shoelace, List.cons_append, List.nil_append, pathSum, cross2]
    ring

lemma shrink_polygan_length (poly : List Point) (offset : ℚ) :
    (shrink_polygan poly offset).length = poly.length := by
  unfold shrink_polygan
  split
  · rfl
  · simp

lemma mem_zipWith {α β γ : Type} {f : α → β → γ} :
    ∀ {l₁ : List α} {l₂ : List β} {x : γ}, x ∈ List.zipWith f l₁ l₂ →
      ∃ a b, a ∈ l₁ ∧ b ∈ l₂ ∧ x = f a b := by
  intro l₁
  induction l₁ with
  | nil => intro l₂ x hx; simp [List.zipWith] at hx
  | cons a l₁ ih =>
    intro l₂ x hx
    cases l₂ with
    | nil => simp [List.zipWith] at hx
    | cons b l₂ =>
      simp only [List.zipWith, List.mem_cons] at hx
      rcases hx with h | h
      · exact ⟨a, b, by simp, by simp, h⟩
      · obtain ⟨a', b', ha, hb, he⟩ := ih h
        exact ⟨a', b', by simp [ha], by simp [hb], he⟩

/-- Shape predicate for rasters: `h` rows, every row of length `w`. -/
def isShape (r : List (List ℚ)) (h w : ℕ) : Prop :=
  r.length = h ∧ ∀ row ∈ r, row.length = w

instance (r : List (List ℚ)) (h w : ℕ) : Decidable (isShape r h w) := by
  unfold isShape; infer_instance

lemma isShape_fill (vertices : List (ℚ × ℚ)) (h w : ℕ) :
    isShape (fill_poly_keras vertices (h, w)) h w := by
  constructor
  · unfold fill_poly_keras
    rw [List.length_map, List.length_range]
  · intro row hrow
    unfold fill_poly_keras at hrow
    rw [List.mem_map] at hrow
    obtain ⟨i, _, hrow⟩ := hrow
    rw [← hrow, List.length_map, List.length_range]

lemma fill_mem_range (vertices : List (ℚ × ℚ)) (h w : ℕ) :
    ∀ row ∈ fill_poly_keras vertices (h, w), ∀ x ∈ row, 0 ≤ x ∧ x ≤ 1 := by
  intro row hrow x hx
  unfold fill_poly_keras at hrow
  rw [List.mem_map] at hrow
  obtain ⟨i, _, hrow⟩ := hrow
  rw [← hrow, List.mem_map] at hx
  obtain ⟨j, _, hx⟩ := hx
  rw [← hx]
  split <;> norm_num

lemma isShape_zeros (h w : ℕ) : isShape (zerosRaster h w) h w := by
  constructor
  · simp [zerosRaster]
  · intro row hrow
    rw [List.eq_of_mem_replicate hrow]
    simp

lemma isShape_mergeMax {a b : List (List ℚ)} {h w : ℕ}
    (ha : isShape a h w) (hb : isShape b h w) : isShape (mergeMax a b) h w := by
  constructor
  · rw [mergeMax, List.length_zipWith, ha.1, hb.1, min_self]
  · intro row hrow
    obtain ⟨ra, rb, hra, hrb, he⟩ := mem_zipWith hrow
    rw [he, List.length_zipWith, ha.2 ra hra, hb.2 rb hrb, min_self]

lemma foldl_maskStep_shape (h w : ℕ) :
    ∀ (l : List (List (ℚ × ℚ) × Bool)) (acc : List (List ℚ)),
      isShape acc h w → isShape (l.foldl (maskStep h w) acc) h w := by
  intro l
  induction l with
  | nil => intro acc hacc; exact hacc
  | cons pb l ih =>
    intro acc hacc
    rw [List.foldl_cons]
    apply ih
    unfold maskStep
    split
    · exact hacc
    · exact isShape_mergeMax hacc (isShape_fill pb.1 h w)

lemma foldl_maskStep_filter (h w : ℕ) :
    ∀ (l : List (List (ℚ × ℚ) × Bool)) (acc : List (List ℚ)),
      l.foldl (maskStep h w) acc =
        ((l.filter fun pb => !pb.2).map Prod.fst).foldl
          (fun acc p => mergeMax acc (fill_poly_keras p (h, w))) acc := by
  intro l
  induction l with
  | nil => intro acc; rfl
  | cons pb l ih =>
    intro acc
    rw [List.foldl_cons, ih]
    by_cases hpb : pb.2
    · rw [List.filter_cons_of_neg (by simp [hpb])]
      unfold maskStep
      rw [if_pos hpb]
    · rw [List.filter_cons_of_pos (by simp [hpb])]
      unfold maskStep
      rw [if_neg hpb, List.map_cons, List.foldl_cons]

lemma rasterSum_nonneg {r : List (List ℚ)}
    (hr : ∀ row ∈ r, ∀ x ∈ row, 0 ≤ x) : 0 ≤ rasterSum r := by
  apply List.sum_nonneg
  intro a ha
  rw [List.mem_map] at ha
  obtain ⟨row, hrow, ha⟩ := ha
  rw [← ha]
  exact List.sum_nonneg (hr row hrow)

lemma rasterSum_eq_zero {r : List (List ℚ)}
    (hr : ∀ row ∈ r, ∀ x ∈ row, x = 0) : rasterSum r = 0 := by
  apply List.sum_eq_zero
  intro a ha
  rw [List.mem_map] at ha
  obtain ⟨row, hrow, ha⟩ := ha
  rw [← ha]
  exact List.sum_eq_zero (hr row hrow)

lemma maskInd_nonneg (m : ℚ) : 0 ≤ maskInd m := by
  unfold maskInd; split <;> norm_num

lemma rasterMap2_forall₂ (f : ℚ → ℚ → ℚ) :
    ∀ {hm mk : List (List ℚ)},
      List.Forall₂ (fun r s => r.length = s.length) hm mk →
      List.Forall₂ (fun r s => r.length = s.length) (rasterMap2 f hm mk) hm := by
  intro hm mk hf
  induction hf with
  | nil => exact List.Forall₂.nil
  | cons hl _ ih =>
    refine List.Forall₂.cons ?_ ih
    rw [List.length_zipWith, hl, min_self]

lemma masked_entries_nonneg {hm mk : List (List ℚ)}
    (hh : ∀ row ∈ hm, ∀ x ∈ row, 0 ≤ x) :
    ∀ row ∈ rasterMap2 (fun hv mv => hv * maskInd mv) hm mk,
      ∀ x ∈ row, 0 ≤ x := by
  intro row hrow x hx
  obtain ⟨hrow', mrow', hh', hm', he⟩ := mem_zipWith hrow
  rw [he] at hx
  obtain ⟨hv, mv, hhv, _, hxe⟩ := mem_zipWith hx
  rw [hxe]
  exact mul_nonneg (hh hrow' hh' hv hhv) (maskInd_nonneg mv)

end DBUtils

namespace DBUtils

/-- C1: for every polygon with fewer than 3 vertices (0, 1 or 2 points) and
every offset distance, `shrink_polygan` returns its input unchanged, with no
error raised. -/
theorem shrink_polygan_degenerate_unchanged (poly : List Point) (offset : ℚ)
    (h : poly.length < 3) : shrink_polygan poly offset = poly := by
  unfold shrink_polygan
  rw [if_pos h]

theorem shrink_polygan_degenerate_unchanged_witness :
    shrink_polygan [] (1 / 2) = [] ∧
    shrink_polygan [⟨0, 0⟩, ⟨1, 1⟩] (1 / 2) = [⟨0, 0⟩, ⟨1, 1⟩] :=
  ⟨shrink_polygan_degenerate_unchanged [] (1 / 2) (by decide),
   shrink_polygan_degenerate_unchanged [⟨0, 0⟩, ⟨1, 1⟩] (1 / 2) (by decide)⟩

/-- C2: for every polygon input, `binary_search_smallest_width` returns a
non-negative integer, and for any input with fewer than 3 vertices it
returns exactly 0 without searching. -/
theorem binary_search_smallest_width_spec (poly : List (ℚ × ℚ)) :
    0 ≤ binary_search_smallest_width poly ∧
    (poly.length < 3 → binary_search_smallest_width poly = 0) := by
  constructor
  · unfold binary_search_smallest_width
    split
    · exact le_refl 0
    · exact Int.natCast_nonneg _
  · intro h
    unfold binary_search_smallest_width
    rw [if_pos h]

theorem binary_search_smallest_width_spec_witness :
    0 ≤ binary_search_smallest_width [(0, 0), (1, 1)] ∧
    binary_search_smallest_width [(0, 0), (1, 1)] = 0 :=
  ⟨(binary_search_smallest_width_spec [(0, 0), (1, 1)]).1,
   (binary_search_smallest_width_spec [(0, 0), (1, 1)]).2 (by decide)⟩

/-- C3: the `Polygon` area is the absolute value of the shoelace sum halved:
the side-2 square gives 4 and the right triangle gives 1/2; it is
non-negative for every vertex list and 0 for fewer than 3 vertices. -/
theorem Polygon_area_spec :
    Polygon [(0, 0), (2, 0), (2, 2), (0, 2)] = 4 ∧
    Polygon [(0, 0), (1, 0), (0, 1)] = 1 / 2 ∧
    (∀ coords : List (ℚ × ℚ), Polygon coords = |shoelace coords| / 2) ∧
    (∀ coords : List (ℚ × ℚ), 0 ≤ Polygon coords) ∧
    (∀ coords : List (ℚ × ℚ), coords.length < 3 → Polygon coords = 0) := by
  refine ⟨?_, ?_, fun _ => rfl, ?_, ?_⟩
  · norm_num [Polygon, shoelace, pathSum, cross2]
  · norm_num [Polygon, shoelace, pathSum, cross2]
  · intro coords
    unfold Polygon
    exact div_nonneg (abs_nonneg _) (by norm_num)
  · intro coords h
    unfold Polygon
    rw [shoelace_short coords h]
    norm_num

theorem Polygon_area_spec_witness :
    0 ≤ Polygon [(1, 1), (5, 2)] ∧ Polygon [(1, 1), (5, 2)] = 0 :=
  ⟨Polygon_area_spec.2.2.2.1 [(1, 1), (5, 2)],
   Polygon_area_spec.2.2.2.2 [(1, 1), (5, 2)] (by decide)⟩

/-- C9: the computed area is unchanged by reversing the vertex order (the
signed shoelace sum flips sign but the absolute area is equal) and by any
cyclic rotation of the vertex list. -/
theorem Polygon_reverse_rotate_invariant :
    (∀ l : List (ℚ × ℚ), shoelace l.reverse = -shoelace l) ∧
    (∀ l : List (ℚ × ℚ), Polygon l.reverse = Polygon l) ∧
    (∀ (l : List (ℚ × ℚ)) (k : ℕ), Polygon (l.rotate k) = Polygon l) := by
  refine ⟨shoelace_reverse, ?_, ?_⟩
  · intro l
    unfold Polygon
    rw [shoelace_reverse, abs_neg]
  · intro l k
    unfold Polygon
    rw [shoelace_rotate]

theorem Polygon_reverse_rotate_invariant_witness :
    Polygon ([(0, 0), (2, 0), (2, 2), (0, 2)] : List (ℚ × ℚ)).reverse =
      Polygon [(0, 0), (2, 0), (2, 2), (0, 2)] ∧
    Polygon (([(0, 0), (2, 0), (2, 2), (0, 2)] : List (ℚ × ℚ)).rotate 1) =
      Polygon [(0, 0), (2, 0), (2, 2), (0, 2)] :=
  ⟨Polygon_reverse_rotate_invariant.2.1 [(0, 0), (2, 0), (2, 2), (0, 2)],
   Polygon_reverse_rotate_invariant.2.2 [(0, 0), (2, 0), (2, 2), (0, 2)] 1⟩

/-- C10: `shrink_polygan` accepts a polygon both as a list of points and as
a raw coordinate array (normalized by the `mkPoint` adapter); the two
representations agree, and for every polygon and offset both produce a
result whose vertex count equals the input vertex count (every element a
`Point` by construction). -/
theorem shrink_polygan_representations :
    (∀ (arr : List (ℚ × ℚ)) (offset : ℚ),
       shrink_polygan_array arr offset = shrink_polygan (arr.map mkPoint) offset) ∧
    (∀ (poly : List Point) (offset : ℚ),
       (shrink_polygan poly offset).length = poly.length) ∧
    (∀ (arr : List (ℚ × ℚ)) (offset : ℚ),
       (shrink_polygan_array arr offset).length = arr.length) := by
  refine ⟨fun _ _ => rfl, shrink_polygan_length, ?_⟩
  intro arr offset
  unfold shrink_polygan_array
  rw [shrink_polygan_length, List.length_map]

theorem shrink_polygan_representations_witness :
    (shrink_polygan_array [(0, 0), (2, 0), (2, 2), (0, 2)] (1 / 2)).length = 4 ∧
    (shrink_polygan ([(0, 0), (2, 0), (2, 2), (0, 2)].map mkPoint) (1 / 2)).length = 4 :=
  ⟨shrink_polygan_representations.2.2 [(0, 0), (2, 0), (2, 2), (0, 2)] (1 / 2),
   shrink_polygan_representations.2.1 ([(0, 0), (2, 0), (2, 2), (0, 2)].map mkPoint) (1 / 2)⟩

end DBUtils

namespace DBUtils

lemma segParam_mem (t : ℚ) (h0 : 0 ≤ t) (h1 : t ≤ 1) (u v : ℚ × ℚ) :
    add2 u (smul2 t (sub2 v u)) ∈ segment ℚ u v := by
  refine ⟨1 - t, t, by linarith, h0, by ring, ?_⟩
  rw [Prod.ext_iff]
  constructor <;>
    simp only [add2, smul2, sub2, Prod.fst_add, Prod.snd_add, Prod.smul_fst,
      Prod.smul_snd, smul_eq_mul] <;> ring

/-- C4: for every point and segment, `project_point_to_segment` returns a
point on the closed segment; when the unclamped projection parameter falls
below 0 or above 1 the result is the corresponding endpoint, and in
particular projecting (3,1) onto the segment (0,0)-(2,0) returns (2,0). -/
theorem project_point_to_segment_spec :
    (∀ x u v : ℚ × ℚ, project_point_to_segment x u v ∈ segment ℚ u v) ∧
    (∀ x u v : ℚ × ℚ, u ≠ v → lineParam x u v < 0 →
      project_point_to_segment x u v = u) ∧
    (∀ x u v : ℚ × ℚ, u ≠ v → 1 < lineParam x u v →
      project_point_to_segment x u v = v) ∧
    project_point_to_segment (3, 1) (0, 0) (2, 0) = (2, 0) := by
  have h1 : ∀ x u v : ℚ × ℚ, project_point_to_segment x u v ∈ segment ℚ u v := by
    intro x u v
    unfold project_point_to_segment
    split
    · exact left_mem_segment ℚ u v
    · exact segParam_mem _ (le_max_left 0 _)
        (max_le (by norm_num) (min_le_left 1 _)) u v
  have h2 : ∀ x u v : ℚ × ℚ, u ≠ v → lineParam x u v < 0 →
      project_point_to_segment x u v = u := by
    intro x u v hne hlt
    unfold project_point_to_segment
    rw [if_neg hne]
    have hmax : max 0 (min 1 (lineParam x u v)) = 0 := by
      rw [min_eq_right (by linarith)]
      exact max_eq_left (by linarith)
    rw [hmax, Prod.ext_iff]
    constructor <;> simp [add2, smul2, sub2]
  have h3 : ∀ x u v : ℚ × ℚ, u ≠ v → 1 < lineParam x u v →
      project_point_to_segment x u v = v := by
    intro x u v hne hlt
    unfold project_point_to_segment
    rw [if_neg hne]
    have hmax : max 0 (min 1 (lineParam x u v)) = 1 := by
      rw [min_eq_left (by linarith)]
      exact max_eq_right (by norm_num)
    rw [hmax, Prod.ext_iff]
    constructor <;> simp [add2, smul2, sub2]
  exact ⟨h1, h2, h3,
    h3 (3, 1) (0, 0) (2, 0) (by norm_num [Prod.ext_iff])
      (by norm_num [lineParam, dot2, sub2])⟩

theorem project_point_to_segment_spec_witness :
    project_point_to_segment (1, 1) (0, 0) (2, 0) ∈ segment ℚ (0, 0) (2, 0) ∧
    project_point_to_segment (3, 1) (0, 0) (2, 0) = (2, 0) :=
  ⟨project_point_to_segment_spec.1 (1, 1) (0, 0) (2, 0),
   project_point_to_segment_spec.2.2.1 (3, 1) (0, 0) (2, 0)
     (by norm_num [Prod.ext_iff]) (by norm_num [lineParam, dot2, sub2])⟩

/-- C5: for every polygon and requested raster shape `(h, w)`,
`fill_poly_keras` returns a raster of exactly that shape with every pixel
value in `[0, 1]`. -/
theorem fill_poly_keras_shape_and_range (vertices : List (ℚ × ℚ)) (h w : ℕ) :
    (fill_poly_keras vertices (h, w)).length = h ∧
    (∀ row ∈ fill_poly_keras vertices (h, w), row.length = w) ∧
    (∀ row ∈ fill_poly_keras vertices (h, w), ∀ x ∈ row, 0 ≤ x ∧ x ≤ 1) :=
  ⟨(isShape_fill vertices h w).1, (isShape_fill vertices h w).2,
   fill_mem_range vertices h w⟩

theorem fill_poly_keras_shape_and_range_witness :
    (fill_poly_keras [(0, 0), (2, 0), (2, 2), (0, 2)] (3, 3)).length = 3 :=
  (fill_poly_keras_shape_and_range [(0, 0), (2, 0), (2, 2), (0, 2)] 3 3).1

/-- C6: `get_mask` returns a raster of shape `(h, w)`; ignored polygons
contribute nothing (the composition equals the fold over the non-ignored
polygons alone), and with a single polygon whose ignore flag is true the
result is the all-zero mask. -/
theorem get_mask_spec :
    (∀ (w h : ℕ) (polys : List (List (ℚ × ℚ))) (ignores : List Bool),
       isShape (get_mask w h polys ignores) h w) ∧
    (∀ (w h : ℕ) (polys : List (List (ℚ × ℚ))) (ignores : List Bool),
       get_mask w h polys ignores =
         (((polys.zip ignores).filter fun pb => !pb.2).map Prod.fst).foldl
           (fun acc p => mergeMax acc (fill_poly_keras p (h, w)))
           (zerosRaster h w)) ∧
    (∀ (w h : ℕ) (p : List (ℚ × ℚ)),
       get_mask w h [p] [true] = zerosRaster h w) := by
  refine ⟨?_, ?_, ?_⟩
  · intro w h polys ignores
    exact foldl_maskStep_shape h w _ _ (isShape_zeros h w)
  · intro w h polys ignores
    exact foldl_maskStep_filter h w _ _
  · intro w h p
    show List.foldl (maskStep h w) (zerosRaster h w) [(p, true)] = zerosRaster h w
    rw [List.foldl_cons, List.foldl_nil]
    unfold maskStep
    rfl

theorem get_mask_spec_witness :
    get_mask 3 3 [[(0, 0), (2, 0), (2, 2), (0, 2)]] [true] = zerosRaster 3 3 ∧
    isShape (get_mask 3 3 [[(0, 0), (2, 0), (2, 2), (0, 2)]] [false]) 3 3 :=
  ⟨get_mask_spec.2.2 3 3 [(0, 0), (2, 0), (2, 2), (0, 2)],
   get_mask_spec.1 3 3 [[(0, 0), (2, 0), (2, 2), (0, 2)]] [false]⟩

/-- C7: `get_region_coordinate` returns at most as many entries as there
are input polygons, and every returned entry is a non-degenerate polygon
(degenerate shrunk instances are silently omitted, never turned into
placeholders or errors). -/
theorem get_region_coordinate_spec (w h : ℕ) (polys : List (List (ℚ × ℚ)))
    (heights : List ℚ) (shrink_ratio : ℚ) :
    (get_region_coordinate w h polys heights shrink_ratio).length ≤ polys.length ∧
    ∀ reg ∈ get_region_coordinate w h polys heights shrink_ratio,
      3 ≤ reg.length ∧ Polygon reg ≠ 0 := by
  constructor
  · unfold get_region_coordinate
    calc ((polys.zip heights).filterMap (regionOf shrink_ratio)).length
        ≤ (polys.zip heights).length := List.length_filterMap_le _ _
      _ ≤ polys.length := by
          rw [List.length_zip]
          exact min_le_left _ _
  · intro reg hreg
    unfold get_region_coordinate at hreg
    rw [List.mem_filterMap] at hreg
    obtain ⟨ph, _, hph⟩ := hreg
    simp only [regionOf] at hph
    split at hph
    · exact absurd hph (by simp)
    · rename_i hcond
      rw [Option.some.injEq] at hph
      push_neg at hcond
      rw [← hph]
      exact ⟨by omega, hcond.2⟩

theorem get_region_coordinate_spec_witness :
    (get_region_coordinate 10 10 [[(1, 1), (8, 1), (8, 3), (1, 3)]] [1]
      (2 / 10)).length ≤ 1 :=
  (get_region_coordinate_spec 10 10 [[(1, 1), (8, 1), (8, 3), (1, 3)]] [1]
    (2 / 10)).1

lemma forall₂_len_map_self (f : List ℚ → List ℚ)
    (hf : ∀ row : List ℚ, (f row).length = row.length) :
    ∀ l : List (List ℚ),
      List.Forall₂ (fun r s => r.length = s.length) (l.map f) l := by
  intro l
  induction l with
  | nil => exact List.Forall₂.nil
  | cons r l ih => exact List.Forall₂.cons (hf r) ih

lemma forall₂_len_map_left (g : ℚ → ℚ) {a b : List (List ℚ)}
    (hab : List.Forall₂ (fun r s => r.length = s.length) a b) :
    List.Forall₂ (fun r s => r.length = s.length) (a.map (List.map g)) b := by
  induction hab with
  | nil => exact List.Forall₂.nil
  | cons hl _ ih =>
    refine List.Forall₂.cons ?_ ih
    rw [List.length_map]
    exact hl

/-- C8: for every heatmap and binary mask of the same shape,
`get_normalized_weight` returns a raster of the heatmap's shape; it is
non-negative whenever the heatmap is, and when the mask has no positive
pixel it performs no division by zero and returns the all-zero raster. -/
theorem get_normalized_weight_spec :
    (∀ heatmap mask : List (List ℚ),
       List.Forall₂ (fun r s => r.length = s.length) heatmap mask →
       (get_normalized_weight heatmap mask).length = heatmap.length ∧
       List.Forall₂ (fun r s => r.length = s.length)
         (get_normalized_weight heatmap mask) heatmap) ∧
    (∀ heatmap mask : List (List ℚ),
       (∀ row ∈ heatmap, ∀ x ∈ row, 0 ≤ x) →
       ∀ row ∈ get_normalized_weight heatmap mask, ∀ x ∈ row, 0 ≤ x) ∧
    (∀ heatmap mask : List (List ℚ),
       (∀ row ∈ mask, ∀ m ∈ row, ¬ 0 < m) →
       get_normalized_weight heatmap mask =
         heatmap.map fun row => row.map fun _ => 0) := by
  refine ⟨?_, ?_, ?_⟩
  · intro hm mk hf
    simp only [get_normalized_weight]
    split
    · constructor
      · rw [List.length_map]
      · exact forall₂_len_map_self _ (fun row => by rw [List.length_map]) hm
    · constructor
      · rw [List.length_map, rasterMap2, List.length_zipWith,
          List.Forall₂.length_eq hf, min_self]
      · exact forall₂_len_map_left _ (rasterMap2_forall₂ _ hf)
  · intro hm mk hh row hrow x hx
    simp only [get_normalized_weight] at hrow
    split at hrow
    · rw [List.mem_map] at hrow
      obtain ⟨row', _, he⟩ := hrow
      rw [← he, List.mem_map] at hx
      obtain ⟨_, _, hxe⟩ := hx
      rw [← hxe]
    · rw [List.mem_map] at hrow
      obtain ⟨mrow, hmrow, he⟩ := hrow
      rw [← he, List.mem_map] at hx
      obtain ⟨v, hv, hxe⟩ := hx
      have hv0 : 0 ≤ v := masked_entries_nonneg hh mrow hmrow v hv
      have hs0 : 0 ≤ rasterSum (rasterMap2 (fun hv mv => hv * maskInd mv) hm mk) :=
        rasterSum_nonneg (masked_entries_nonneg hh)
      have hcnt : 0 ≤ rasterSum (mk.map fun r => r.map maskInd) := by
        apply rasterSum_nonneg
        intro r hr y hy
        rw [List.mem_map] at hr
        obtain ⟨r', _, hre⟩ := hr
        rw [← hre, List.mem_map] at hy
        obtain ⟨m, _, hye⟩ := hy
        rw [← hye]
        exact maskInd_nonneg m
      rw [← hxe]
      exact div_nonneg (mul_nonneg hv0 hcnt) hs0
  · intro hm mk hmk
    have hzero : rasterSum (rasterMap2 (fun hv mv => hv * maskInd mv) hm mk) = 0 := by
      apply rasterSum_eq_zero
      intro row hrow x hx
      obtain ⟨hr, mr, _, hmr, he⟩ := mem_zipWith hrow
      rw [he] at hx
      obtain ⟨hv, mv, _, hmv, hxe⟩ := mem_zipWith hx
      rw [hxe]
      have hind : maskInd mv = 0 := by
        unfold maskInd
        rw [if_neg (hmk mr hmr mv hmv)]
      rw [hind, mul_zero]
    simp only [get_normalized_weight]
    rw [if_pos hzero]

theorem get_normalized_weight_spec_witness :
    (get_normalized_weight [[1 / 10, 6 / 10], [4 / 10, 8 / 10]]
      [[1, 1], [1, 1]]).length = 2 ∧
    get_normalized_weight [[1 / 10, 6 / 10], [4 / 10, 8 / 10]] [[0, 0], [0, 0]] =
      [[1 / 10, 6 / 10], [4 / 10, 8 / 10]].map fun row => row.map fun _ => (0 : ℚ) :=
  ⟨(get_normalized_weight_spec.1 [[1 / 10, 6 / 10], [4 / 10, 8 / 10]]
      [[1, 1], [1, 1]] (by simp)).1,
   get_normalized_weight_spec.2.2 [[1 / 10, 6 / 10], [4 / 10, 8 / 10]]
     [[0, 0], [0, 0]] (by simp)⟩

end DBUtils
